import Mathlib

/-!
Verification of the geomengine 2D computational-geometry library.

The library is a collection of pure functions over immutable point and line
value types: a vector-algebra kernel on points, derived metrics on lines,
point-set algorithms (centroid, convex hull) and line-pair algorithms
(intersection).  The embedding below translates each function from its
source file.  The generic floating-point scalar of the source is modelled
by the rationals, which form an ordered field with computable arithmetic;
the one operation that needs a square root (vector normalization) is
modelled over the reals.
-/

/-- The two-coordinate point value type from src/point/point2d.rs.
Equality is coordinate-wise structural equality. -/
structure Point2D (α : Type) where
  x : α
  y : α
deriving DecidableEq, Repr

/-- Constructor Point2D::new. -/
def Point2D.new {α : Type} (x y : α) : Point2D α :=
  ⟨x, y⟩

/-- Point2D::origin, the point with both coordinates zero. -/
def Point2D.origin {α : Type} [Zero α] : Point2D α :=
  ⟨0, 0⟩

/-- Component-wise addition, the Add impl of Point2D. -/
instance {α : Type} [Add α] : Add (Point2D α) :=
  ⟨fun p q => ⟨p.x + q.x, p.y + q.y⟩⟩

/-- Component-wise subtraction, the Sub impl of Point2D. -/
instance {α : Type} [Sub α] : Sub (Point2D α) :=
  ⟨fun p q => ⟨p.x - q.x, p.y - q.y⟩⟩

/-- Scalar multiplication, the Mul impl of Point2D. -/
instance {α : Type} [Mul α] : HMul (Point2D α) α (Point2D α) :=
  ⟨fun p s => ⟨p.x * s, p.y * s⟩⟩

/-- Scalar division, the Div impl of Point2D. -/
instance {α : Type} [Div α] : HDiv (Point2D α) α (Point2D α) :=
  ⟨fun p s => ⟨p.x / s, p.y / s⟩⟩

/-- Point2D::normalize from src/point/point2d.rs: the magnitude is the
square root of the sum of squared coordinates; a zero magnitude yields the
absent result, otherwise both coordinates are divided by the magnitude. -/
noncomputable def Point2D.normalize (p : Point2D ℝ) : Option (Point2D ℝ) :=
  let magnitude := Real.sqrt (p.x * p.x + p.y * p.y)
  if magnitude = 0 then none
  else some ⟨p.x / magnitude, p.y / magnitude⟩

/-- The line value type from src/line/line2d.rs: an ordered pair of
points, p1 the start and p2 the end. -/
structure Line2D (α : Type) where
  p1 : Point2D α
  p2 : Point2D α
deriving DecidableEq, Repr

/-- Constructor Line2D::new. -/
def Line2D.new {α : Type} (p1 p2 : Point2D α) : Line2D α :=
  ⟨p1, p2⟩

/-- Line2D::slope from src/line/line2d.rs: absent when the two x
coordinates are exactly equal, otherwise rise over run. -/
def Line2D.slope (l : Line2D ℚ) : Option ℚ :=
  if l.p2.x = l.p1.x then none
  else some ((l.p2.y - l.p1.y) / (l.p2.x - l.p1.x))

/-- Line2D::subdivide from src/line/line2d.rs: zero segments yield the
empty sequence; otherwise the per-segment deltas dx, dy are the coordinate
differences divided by the segment count, and segment i runs from
p1 + i * (dx, dy) to p1 + (i + 1) * (dx, dy). -/
def Line2D.subdivide (l : Line2D ℚ) (num_segments : ℕ) : List (Line2D ℚ) :=
  if num_segments = 0 then []
  else
    let dx := (l.p2.x - l.p1.x) / (num_segments : ℚ)
    let dy := (l.p2.y - l.p1.y) / (num_segments : ℚ)
    (List.range num_segments).map fun (i : ℕ) =>
      Line2D.new
        (Point2D.new (l.p1.x + (i : ℚ) * dx) (l.p1.y + (i : ℚ) * dy))
        (Point2D.new (l.p1.x + ((i : ℚ) + 1) * dx) (l.p1.y + ((i : ℚ) + 1) * dy))

/-- centroid_2d from src/algorithms/point_algorithms.rs: the fold of
component-wise addition over the points starting from the origin, divided
by the point count.  The function is total and performs no emptiness
check: on the empty slice it divides the origin by zero. -/
def centroid_2d (points : List (Point2D ℚ)) : Point2D ℚ :=
  let n := points.length
  let sum := points.foldl (fun acc p => acc + p) Point2D.origin
  sum / (n : ℚ)

/-- The comparator partial_cmp(a, b).unwrap_or(Equal) used by
convex_hull_2d on each coordinate: on a linear order the partial
comparison is never absent, so this is the usual three-way comparison. -/
def pcmp (a b : ℚ) : Ordering :=
  if a < b then Ordering.lt
  else if a = b then Ordering.eq
  else Ordering.gt

/-- The lexicographic point order used by the sort in convex_hull_2d:
compare x coordinates, then y coordinates, with the Ordering.then
combinator exactly as in the source comparator; sort_by keeps a before b
whenever the comparator does not answer Greater. -/
def sortLe (a b : Point2D ℚ) : Prop :=
  (pcmp a.x b.x).then (pcmp a.y b.y) ≠ Ordering.gt

instance sortLe.decidableRel : DecidableRel sortLe :=
  fun _ _ => inferInstanceAs (Decidable (_ ≠ Ordering.gt))

/-- The cross_product closure inside convex_hull_2d: the z component of
the cross product of the vectors o→a and o→b. -/
def cross_product (o a b : Point2D ℚ) : ℚ :=
  (a.x - o.x) * (b.y - o.y) - (a.y - o.y) * (b.x - o.x)

/-- The inner while loop of each hull pass: while the stack holds at
least two points and the last two stack points together with the
candidate make a non-left turn (cross product at most zero), pop.  The
stack is kept most-recent-first, so the Rust indices len-2, len-1 are the
second and first list elements. -/
def hull_pop (p : Point2D ℚ) : List (Point2D ℚ) → List (Point2D ℚ)
  | [] => []
  | [b] => [b]
  | b :: a :: rest =>
    if cross_product a b p ≤ 0 then hull_pop p (a :: rest)
    else b :: a :: rest

/-- One iteration of a hull pass: run the pop loop, then push the
candidate point. -/
def hull_step (st : List (Point2D ℚ)) (p : Point2D ℚ) : List (Point2D ℚ) :=
  p :: hull_pop p st

/-- A whole hull pass over a point sequence, starting from the empty
stack. -/
def hull_chain (pts : List (Point2D ℚ)) : List (Point2D ℚ) :=
  pts.foldl hull_step []

/-- convex_hull_2d from src/algorithms/point_algorithms.rs, the monotone
chain algorithm: fewer than three points are returned unchanged;
otherwise the points are sorted lexicographically by the stable sort_by
with the (x, then y) comparator, the lower pass scans the sorted points
and the upper pass scans them in reverse, each final stack loses its
most recent point (Vec::pop), and the lower part is extended with the
upper part.  The stacks are most-recent-first lists, so popping the Rust
vector's last element is dropping the list head, and restoring scan
order is a reversal.  Since the comparator distinguishes any two
structurally different points, every sorted permutation of the input is
the same list and the stable sort_by is embedded as insertion sort. -/
def convex_hull_2d (points : List (Point2D ℚ)) : List (Point2D ℚ) :=
  if points.length < 3 then points
  else
    let sorted := List.insertionSort sortLe points
    let lower := hull_chain sorted
    let upper := hull_chain sorted.reverse
    lower.tail.reverse ++ upper.tail.reverse

/-- The determinant of the two-by-two linear system solved by
intersection_point in src/algorithms/line_algorithms.rs. -/
def intersection_denom (l1 l2 : Line2D ℚ) : ℚ :=
  (l1.p1.x - l1.p2.x) * (l2.p1.y - l2.p2.y) - (l1.p1.y - l1.p2.y) * (l2.p1.x - l2.p2.x)

/-- intersection_point from src/algorithms/line_algorithms.rs.  The
source computes the determinant, then contains a vestigial guard
statement copied from are_perpendicular_lines: it mentions a variable
dot_product that is not in scope, and its boolean value is discarded
without any early return, so no control flow depends on it.  The
function then always divides both Cramer determinants by the
determinant denom and wraps the quotient point in Some; it has no path
returning None.  The embedding reproduces that effective behavior. -/
def intersection_point (l1 l2 : Line2D ℚ) : Option (Point2D ℚ) :=
  let denom := intersection_denom l1 l2
  let det1 := l1.p1.x * l1.p2.y - l1.p1.y * l1.p2.x
  let det2 := l2.p1.x * l2.p2.y - l2.p1.y * l2.p2.x
  let intersect_x := (det1 * (l2.p1.x - l2.p2.x) - det2 * (l1.p1.x - l1.p2.x)) / denom
  let intersect_y := (det1 * (l2.p1.y - l2.p2.y) - det2 * (l1.p1.y - l1.p2.y)) / denom
  some (Point2D.new intersect_x intersect_y)

theorem Point2D.ext_xy {α : Type} {p q : Point2D α} (hx : p.x = q.x) (hy : p.y = q.y) :
    p = q := by
  cases p
  cases q
  cases hx
  cases hy
  rfl

/-- The sort comparator spelled out: a point precedes another when its x
coordinate is smaller, or the x coordinates agree and its y coordinate is
not larger. -/
theorem sortLe_iff (a b : Point2D ℚ) :
    sortLe a b ↔ a.x < b.x ∨ (a.x = b.x ∧ a.y ≤ b.y) := by
  unfold sortLe pcmp
  rcases lt_trichotomy a.x b.x with h | h | h
  · simp [h, Ordering.then]
  · rcases lt_trichotomy a.y b.y with hy | hy | hy
    · simp [h, lt_irrefl, Ordering.then, hy, le_of_lt hy]
    · simp [h, lt_irrefl, Ordering.then, hy, lt_irrefl, le_of_eq hy]
    · simp [h, lt_irrefl, Ordering.then, not_lt_of_gt hy, (ne_of_gt hy),
        not_le_of_gt hy]
  · simp [h, not_lt_of_gt h, ne_of_gt h, Ordering.then]

instance : IsTotal (Point2D ℚ) sortLe := by
  constructor
  intro a b
  rw [sortLe_iff, sortLe_iff]
  rcases lt_trichotomy a.x b.x with h | h | h
  · exact Or.inl (Or.inl h)
  · rcases le_total a.y b.y with hy | hy
    · exact Or.inl (Or.inr ⟨h, hy⟩)
    · exact Or.inr (Or.inr ⟨h.symm, hy⟩)
  · exact Or.inr (Or.inl h)

instance : IsTrans (Point2D ℚ) sortLe := by
  constructor
  intro a b c hab hbc
  rw [sortLe_iff] at hab hbc ⊢
  rcases hab with h1 | ⟨h1, h1y⟩
  · rcases hbc with h2 | ⟨h2, _⟩
    · exact Or.inl (h1.trans h2)
    · exact Or.inl (h2 ▸ h1)
  · rcases hbc with h2 | ⟨h2, h2y⟩
    · exact Or.inl (h1 ▸ h2)
    · exact Or.inr ⟨h1.trans h2, h1y.trans h2y⟩

theorem sortLe_antisymm {a b : Point2D ℚ} (hab : sortLe a b) (hba : sortLe b a) :
    a = b := by
  rw [sortLe_iff] at hab hba
  rcases hab with h1 | ⟨h1, h1y⟩
  · rcases hba with h2 | ⟨h2, _⟩
    · exact absurd (h1.trans h2) (lt_irrefl _)
    · exact absurd h1 (h2 ▸ lt_irrefl _)
  · rcases hba with h2 | ⟨h2, h2y⟩
    · exact absurd h2 (h1 ▸ lt_irrefl _)
    · exact Point2D.ext_xy h1 (le_antisymm h1y h2y)

/-- C2: convex_hull_2d applied to the ten sample points returns exactly
the five-vertex hull (-5,-3), (-1,-5), (1,-4), (0,0), (-1,1) in that
cyclic order. -/
theorem convex_hull_2d_ten_point_scenario :
    convex_hull_2d
      [⟨0, 0⟩, ⟨1, -4⟩, ⟨-1, -5⟩, ⟨-5, -3⟩, ⟨-3, -1⟩, ⟨-1, -3⟩, ⟨-2, -2⟩, ⟨-1, -1⟩, ⟨-2, -1⟩, ⟨-1, 1⟩] =
      [⟨-5, -3⟩, ⟨-1, -5⟩, ⟨1, -4⟩, ⟨0, 0⟩, ⟨-1, 1⟩] := by
  norm_num [convex_hull_2d, List.insertionSort, List.orderedInsert, sortLe_iff,
    hull_chain, hull_step, hull_pop, cross_product]

/-- C6: an input of fewer than three points is returned unchanged, in
the same order. -/
theorem convex_hull_2d_short_input (pts : List (Point2D ℚ)) (h : pts.length < 3) :
    convex_hull_2d pts = pts := by
  simp [convex_hull_2d, h]

/-- Witness for C6 at a concrete two-point input. -/
theorem convex_hull_2d_short_input_witness :
    ([⟨1, 1⟩, ⟨1, 2⟩] : List (Point2D ℚ)).length < 3 ∧
      convex_hull_2d [⟨1, 1⟩, ⟨1, 2⟩] = [⟨1, 1⟩, ⟨1, 2⟩] :=
  ⟨by decide, convex_hull_2d_short_input [⟨1, 1⟩, ⟨1, 2⟩] (by decide)⟩

/-- C1: on the all-equal input of three copies of the origin, the hull
contains the origin twice: the output is not a sequence of pairwise
distinct vertices, its first and last points coincide, and the duplicate
input points produce a duplicate hull vertex, contradicting both the
claimed invariant and the documentation of convex_hull_2d, which says
duplicate points are removed when the two chains are combined. -/
theorem convex_hull_2d_all_equal_duplicate_vertices :
    convex_hull_2d [⟨0, 0⟩, ⟨0, 0⟩, ⟨0, 0⟩] = [⟨0, 0⟩, ⟨0, 0⟩] ∧
      ¬ (convex_hull_2d [⟨0, 0⟩, ⟨0, 0⟩, ⟨0, 0⟩]).Nodup := by
  have h : convex_hull_2d [⟨0, 0⟩, ⟨0, 0⟩, ⟨0, 0⟩] = [⟨0, 0⟩, ⟨0, 0⟩] := by
    norm_num [convex_hull_2d, List.insertionSort, List.orderedInsert, sortLe_iff,
      hull_chain, hull_step, hull_pop, cross_product]
  refine ⟨h, ?_⟩
  rw [h]
  simp

/-- C3: the embedded intersection_point solves the crossing-segments
example correctly, but it is a total function on the Some side: it never
answers None, and on two parallel lines it reaches the division with the
determinant equal to zero, because the zero-determinant guard in the
source is a vestigial statement whose boolean result is discarded. -/
theorem intersection_point_unguarded_determinant :
    intersection_point (Line2D.new (Point2D.new 0 0) (Point2D.new 2 2))
        (Line2D.new (Point2D.new 0 2) (Point2D.new 2 0)) = some (Point2D.new 1 1) ∧
      intersection_denom (Line2D.new (Point2D.new 0 0) (Point2D.new 1 0))
        (Line2D.new (Point2D.new 0 1) (Point2D.new 1 1)) = 0 ∧
      (∀ l1 l2 : Line2D ℚ, (intersection_point l1 l2).isSome = true) := by
  refine ⟨?_, ?_, ?_⟩
  · norm_num [intersection_point, intersection_denom, Line2D.new, Point2D.new]
  · norm_num [intersection_denom, Line2D.new, Point2D.new]
  · intro l1 l2
    simp [intersection_point]

/-- C8: slope is absent exactly when the two x coordinates are equal
(exact comparison), and otherwise is the rise over run ratio. -/
theorem slope_vertical_iff (l : Line2D ℚ) :
    (l.slope = none ↔ l.p2.x = l.p1.x) ∧
      (l.p2.x ≠ l.p1.x →
        l.slope = some ((l.p2.y - l.p1.y) / (l.p2.x - l.p1.x))) := by
  constructor
  · unfold Line2D.slope
    split
    · simpa
    · simpa
  · intro h
    simp [Line2D.slope, h]

/-- Witness for C8: a vertical line has no slope, and the slope of the
segment from the origin to (2, 1) is one half. -/
theorem slope_vertical_iff_witness :
    (Line2D.new (Point2D.new 1 0) (Point2D.new 1 5)).slope = none ∧
      (Line2D.new (Point2D.new 0 0) (Point2D.new 2 1)).slope = some (1 / 2) := by
  constructor
  · exact (slope_vertical_iff (Line2D.new (Point2D.new 1 0) (Point2D.new 1 5))).1.mpr rfl
  · have h := (slope_vertical_iff (Line2D.new (Point2D.new 0 0) (Point2D.new 2 1))).2
      (by norm_num [Line2D.new, Point2D.new])
    rw [h]
    norm_num [Line2D.new, Point2D.new]

theorem Line2D.ext_pq {α : Type} {l m : Line2D α} (h1 : l.p1 = m.p1) (h2 : l.p2 = m.p2) :
    l = m := by
  cases l
  cases m
  cases h1
  cases h2
  rfl

/-- Unfolding lemma for component-wise point addition. -/
theorem Point2D.add_def {α : Type} [Add α] (p q : Point2D α) :
    p + q = ⟨p.x + q.x, p.y + q.y⟩ :=
  rfl

/-- Unfolding lemma for scalar division of a point. -/
theorem Point2D.div_def {α : Type} [Div α] (p : Point2D α) (s : α) :
    p / s = ⟨p.x / s, p.y / s⟩ :=
  rfl


/-- The i-th sub-segment produced by subdivide for a positive segment
count n, in closed form. -/
def subdivide_seg (l : Line2D ℚ) (n : ℕ) (i : ℕ) : Line2D ℚ :=
  Line2D.new
    (Point2D.new (l.p1.x + (i : ℚ) * ((l.p2.x - l.p1.x) / (n : ℚ)))
      (l.p1.y + (i : ℚ) * ((l.p2.y - l.p1.y) / (n : ℚ))))
    (Point2D.new (l.p1.x + ((i : ℚ) + 1) * ((l.p2.x - l.p1.x) / (n : ℚ)))
      (l.p1.y + ((i : ℚ) + 1) * ((l.p2.y - l.p1.y) / (n : ℚ))))

theorem subdivide_eq_map (l : Line2D ℚ) (n : ℕ) (hn : n ≠ 0) :
    l.subdivide n = (List.range n).map (subdivide_seg l n) := by
  unfold Line2D.subdivide
  rw [if_neg hn]
  rfl

theorem subdivide_getElem (l : Line2D ℚ) (n i : ℕ) (hi : i < n) :
    (l.subdivide n)[i]? = some (subdivide_seg l n i) := by
  rw [subdivide_eq_map l n (by omega), List.getElem?_map, List.getElem?_range hi]
  rfl

theorem subdivide_length (l : Line2D ℚ) (n : ℕ) : (l.subdivide n).length = n := by
  by_cases hn : n = 0
  · subst hn
    rfl
  · rw [subdivide_eq_map l n hn, List.length_map, List.length_range]

/-- C5: subdivide returns exactly n sub-segments; zero segments give the
empty sequence and one segment gives back the original line; each
sub-segment ends exactly where the next one starts; and the first start
point and last end point are exactly the endpoints of the original
line. -/
theorem subdivide_spec (l : Line2D ℚ) (n : ℕ) :
    (l.subdivide n).length = n ∧
    l.subdivide 0 = [] ∧
    l.subdivide 1 = [l] ∧
    (∀ i : ℕ, ∀ s t : Line2D ℚ,
      (l.subdivide n)[i]? = some s → (l.subdivide n)[i + 1]? = some t → s.p2 = t.p1) ∧
    (∀ s : Line2D ℚ, (l.subdivide n).head? = some s → s.p1 = l.p1) ∧
    (∀ s : Line2D ℚ, (l.subdivide n).getLast? = some s → s.p2 = l.p2) := by
  refine ⟨subdivide_length l n, rfl, ?_, ?_, ?_, ?_⟩
  · rw [subdivide_eq_map l 1 one_ne_zero]
    have h1 : List.range 1 = [0] := rfl
    rw [h1, List.map_cons, List.map_nil]
    refine List.cons_eq_cons.mpr ⟨?_, rfl⟩
    refine Line2D.ext_pq (Point2D.ext_xy ?_ ?_) (Point2D.ext_xy ?_ ?_) <;>
      push_cast [subdivide_seg, Line2D.new, Point2D.new] <;> ring
  · intro i s t hs ht
    by_cases hn : n = 0
    · subst hn
      simp [Line2D.subdivide] at hs
    · rcases lt_or_ge (i + 1) n with hi1 | hi1
      · rw [subdivide_getElem l n i (Nat.lt_of_succ_lt hi1)] at hs
        rw [subdivide_getElem l n (i + 1) hi1] at ht
        rw [Option.some.injEq] at hs ht
        subst hs
        subst ht
        refine Point2D.ext_xy ?_ ?_ <;>
          push_cast [subdivide_seg, Line2D.new, Point2D.new] <;> ring
      · have hnone : (l.subdivide n)[i + 1]? = none := by
          apply List.getElem?_eq_none
          rw [subdivide_length]
          omega
        rw [hnone] at ht
        exact absurd ht (by simp)
  · intro s hs
    by_cases hn : n = 0
    · subst hn
      simp [Line2D.subdivide] at hs
    · rw [List.head?_eq_getElem?, subdivide_getElem l n 0 (Nat.pos_of_ne_zero hn),
        Option.some.injEq] at hs
      subst hs
      refine Point2D.ext_xy ?_ ?_ <;>
        push_cast [subdivide_seg, Line2D.new, Point2D.new] <;> ring
  · intro s hs
    by_cases hn : n = 0
    · subst hn
      simp [Line2D.subdivide] at hs
    · have hn1 : n - 1 < n := Nat.sub_lt (Nat.pos_of_ne_zero hn) one_pos
      rw [List.getLast?_eq_getElem?, subdivide_length,
        subdivide_getElem l n (n - 1) hn1, Option.some.injEq] at hs
      subst hs
      have hne : (n : ℚ) ≠ 0 := Nat.cast_ne_zero.mpr hn
      have hcast : ((n - 1 : ℕ) : ℚ) + 1 = (n : ℚ) := by
        rw [Nat.cast_sub (Nat.one_le_iff_ne_zero.mpr hn)]
        ring
      refine Point2D.ext_xy ?_ ?_ <;>
        simp only [subdivide_seg, Line2D.new, Point2D.new, hcast] <;>
        field_simp

/-- Witness for C5 at the unit diagonal line split in two: there are two
sub-segments, the first ends exactly where the second starts, and those
segments are the two concrete half-diagonals. -/
theorem subdivide_spec_witness :
    ((Line2D.new (Point2D.new (0 : ℚ) 0) (Point2D.new 1 1)).subdivide 2)[0]? =
        some (Line2D.new (Point2D.new 0 0) (Point2D.new (1 / 2) (1 / 2))) ∧
      ((Line2D.new (Point2D.new (0 : ℚ) 0) (Point2D.new 1 1)).subdivide 2)[1]? =
        some (Line2D.new (Point2D.new (1 / 2) (1 / 2)) (Point2D.new 1 1)) ∧
      (Line2D.new (Point2D.new (0 : ℚ) 0) (Point2D.new 1 1) |>.subdivide 2).length = 2 ∧
      (Line2D.new (Point2D.new (0 : ℚ) 0) (Point2D.new (1 / 2) (1 / 2))).p2 =
        (Line2D.new (Point2D.new ((1 : ℚ) / 2) (1 / 2)) (Point2D.new 1 1)).p1 := by
  have h0 : ((Line2D.new (Point2D.new (0 : ℚ) 0) (Point2D.new 1 1)).subdivide 2)[0]? =
      some (Line2D.new (Point2D.new 0 0) (Point2D.new (1 / 2) (1 / 2))) := by
    rw [subdivide_getElem _ 2 0 (by norm_num)]
    norm_num [subdivide_seg, Line2D.new, Point2D.new]
  have h1 : ((Line2D.new (Point2D.new (0 : ℚ) 0) (Point2D.new 1 1)).subdivide 2)[1]? =
      some (Line2D.new (Point2D.new (1 / 2) (1 / 2)) (Point2D.new 1 1)) := by
    rw [subdivide_getElem _ 2 1 (by norm_num)]
    norm_num [subdivide_seg, Line2D.new, Point2D.new]
  refine ⟨h0, h1, (subdivide_spec (Line2D.new (Point2D.new (0 : ℚ) 0) (Point2D.new 1 1)) 2).1, ?_⟩
  exact (subdivide_spec (Line2D.new (Point2D.new (0 : ℚ) 0) (Point2D.new 1 1)) 2).2.2.2.1
    0 _ _ h0 h1

theorem centroid_fold (pts : List (Point2D ℚ)) (acc : Point2D ℚ) :
    pts.foldl (fun acc p => acc + p) acc =
      Point2D.new (acc.x + (pts.map fun p => p.x).sum) (acc.y + (pts.map fun p => p.y).sum) := by
  induction pts generalizing acc with
  | nil =>
    simp [Point2D.new]
  | cons p rest ih =>
    rw [List.foldl_cons, ih]
    refine Point2D.ext_xy ?_ ?_ <;>
      simp [Point2D.add_def, Point2D.new] <;> ring

/-- C7 counterexample: on the empty point set, centroid_2d does not
signal any error; it silently returns the value obtained by dividing the
zero sum by the zero point count. -/
theorem centroid_2d_empty_no_error :
    centroid_2d [] = (Point2D.origin : Point2D ℚ) / (0 : ℚ) := by
  unfold centroid_2d
  norm_num

/-- C7 amended: centroid_2d applied to the empty point set silently
returns the division-by-zero value (the zero-sum point divided by the
scalar zero) instead of an explicit error result; for every non-empty
point set it returns the arithmetic mean of all the points'
coordinates. -/
theorem centroid_2d_mean :
    centroid_2d [] = (Point2D.origin : Point2D ℚ) / ((0 : ℕ) : ℚ) ∧
      ∀ pts : List (Point2D ℚ), pts ≠ [] →
        centroid_2d pts =
          Point2D.new ((pts.map fun p => p.x).sum / (pts.length : ℚ))
            ((pts.map fun p => p.y).sum / (pts.length : ℚ)) := by
  constructor
  · rfl
  · intro pts _
    unfold centroid_2d
    rw [centroid_fold]
    refine Point2D.ext_xy ?_ ?_ <;>
      simp [Point2D.div_def, Point2D.new, Point2D.origin]

/-- Witness for C7: the centroid of the four sample points (0,0), (1,1),
(2,3), (1,4) is (1,2). -/
theorem centroid_2d_mean_witness :
    ([⟨0, 0⟩, ⟨1, 1⟩, ⟨2, 3⟩, ⟨1, 4⟩] : List (Point2D ℚ)) ≠ [] ∧
      centroid_2d [⟨0, 0⟩, ⟨1, 1⟩, ⟨2, 3⟩, ⟨1, 4⟩] = Point2D.new 1 2 := by
  refine ⟨by simp, ?_⟩
  rw [centroid_2d_mean.2 [⟨0, 0⟩, ⟨1, 1⟩, ⟨2, 3⟩, ⟨1, 4⟩] (by simp)]
  norm_num [Point2D.new]

theorem hull_pop_subset (p q : Point2D ℚ) :
    ∀ st : List (Point2D ℚ), q ∈ hull_pop p st → q ∈ st := by
  intro st
  induction st with
  | nil =>
    simp [hull_pop]
  | cons b t ih =>
    cases t with
    | nil =>
      simp [hull_pop]
    | cons a rest =>
      rw [hull_pop]
      split
      · intro h
        exact List.mem_cons_of_mem b (ih h)
      · exact id

theorem foldl_hull_step_subset (q : Point2D ℚ) :
    ∀ (l : List (Point2D ℚ)) (st : List (Point2D ℚ)),
      q ∈ List.foldl hull_step st l → q ∈ st ∨ q ∈ l := by
  intro l
  induction l with
  | nil =>
    intro st h
    exact Or.inl h
  | cons p rest ih =>
    intro st h
    rw [List.foldl_cons] at h
    rcases ih (hull_step st p) h with h1 | h1
    · rw [hull_step] at h1
      rcases List.mem_cons.mp h1 with h2 | h2
      · exact Or.inr (h2 ▸ List.mem_cons_self p rest)
      · exact Or.inl (hull_pop_subset p q st h2)
    · exact Or.inr (List.mem_cons_of_mem p h1)

theorem hull_chain_subset (q : Point2D ℚ) (l : List (Point2D ℚ)) :
    q ∈ hull_chain l → q ∈ l := by
  intro h
  rcases foldl_hull_step_subset q l [] h with h1 | h1
  · simp at h1
  · exact h1

/-- C10: every vertex of the returned hull is one of the input points;
the algorithm never fabricates a point. -/
theorem convex_hull_2d_subset_input (pts : List (Point2D ℚ)) (q : Point2D ℚ)
    (hq : q ∈ convex_hull_2d pts) : q ∈ pts := by
  unfold convex_hull_2d at hq
  split at hq
  · exact hq
  · rcases List.mem_append.mp hq with h | h
    · have h1 : q ∈ (hull_chain (List.insertionSort sortLe pts)).tail :=
        List.mem_reverse.mp h
      have h2 : q ∈ List.insertionSort sortLe pts :=
        hull_chain_subset q _ (List.mem_of_mem_tail h1)
      exact (List.mem_insertionSort sortLe).mp h2
    · have h1 : q ∈ (hull_chain (List.insertionSort sortLe pts).reverse).tail :=
        List.mem_reverse.mp h
      have h2 : q ∈ (List.insertionSort sortLe pts).reverse :=
        hull_chain_subset q _ (List.mem_of_mem_tail h1)
      exact (List.mem_insertionSort sortLe).mp (List.mem_reverse.mp h2)

/-- Witness for C10: the point (0,0) is a vertex of the hull of the ten
sample points and is indeed one of them. -/
theorem convex_hull_2d_subset_input_witness :
    (⟨0, 0⟩ : Point2D ℚ) ∈
        ([⟨0, 0⟩, ⟨1, -4⟩, ⟨-1, -5⟩, ⟨-5, -3⟩, ⟨-3, -1⟩, ⟨-1, -3⟩, ⟨-2, -2⟩, ⟨-1, -1⟩,
          ⟨-2, -1⟩, ⟨-1, 1⟩] : List (Point2D ℚ)) := by
  apply convex_hull_2d_subset_input
  rw [show convex_hull_2d
      [⟨0, 0⟩, ⟨1, -4⟩, ⟨-1, -5⟩, ⟨-5, -3⟩, ⟨-3, -1⟩, ⟨-1, -3⟩, ⟨-2, -2⟩, ⟨-1, -1⟩,
        ⟨-2, -1⟩, ⟨-1, 1⟩] =
      [⟨-5, -3⟩, ⟨-1, -5⟩, ⟨1, -4⟩, ⟨0, 0⟩, ⟨-1, 1⟩] from by
    norm_num [convex_hull_2d, List.insertionSort, List.orderedInsert, sortLe_iff,
      hull_chain, hull_step, hull_pop, cross_product]]
  norm_num

theorem sortLe_refl (a : Point2D ℚ) : sortLe a a := by
  rw [sortLe_iff]
  exact Or.inr ⟨rfl, le_refl _⟩

/-- On an all-collinear scan every new candidate pops the stack back to
the first point: starting from a two-point stack, each step of the fold
keeps exactly the first scanned point below the current candidate. -/
theorem foldl_hull_step_two (x : Point2D ℚ) :
    ∀ (l : List (Point2D ℚ)) (y : Point2D ℚ),
      (∀ u c, u ∈ y :: l → c ∈ l → cross_product x u c = 0) →
      List.foldl hull_step [y, x] l = [(y :: l).getLast (List.cons_ne_nil y l), x] := by
  intro l
  induction l with
  | nil =>
    intro y _
    rfl
  | cons c rest ih =>
    intro y h
    rw [List.foldl_cons]
    have hc : cross_product x y c = 0 :=
      h y c (List.mem_cons_self y (c :: rest)) (List.mem_cons_self c rest)
    have hstep : hull_step [y, x] c = [c, x] := by
      simp [hull_step, hull_pop, hc]
    rw [hstep, ih c (fun u c2 hu hc2 =>
      h u c2 (List.mem_cons_of_mem y hu) (List.mem_cons_of_mem c hc2)),
      List.getLast_cons_cons]

/-- A hull pass over an all-collinear sequence of at least two points
keeps only the last and the first scanned points on the stack. -/
theorem hull_chain_cons_cons (x y : Point2D ℚ) (l : List (Point2D ℚ))
    (h : ∀ u c, u ∈ y :: l → c ∈ l → cross_product x u c = 0) :
    hull_chain (x :: y :: l) = [(y :: l).getLast (List.cons_ne_nil y l), x] := by
  unfold hull_chain
  rw [List.foldl_cons, List.foldl_cons]
  have h1 : hull_step [] x = [x] := rfl
  have h2 : hull_step [x] y = [y, x] := rfl
  rw [h1, h2]
  exact foldl_hull_step_two x l y h

theorem sorted_rel_getLast :
    ∀ (l : List (Point2D ℚ)) (hne : l ≠ []), l.Sorted sortLe →
      ∀ q ∈ l, sortLe q (l.getLast hne) := by
  intro l
  induction l with
  | nil =>
    intro hne
    exact absurd rfl hne
  | cons a t ih =>
    intro hne hs q hq
    cases t with
    | nil =>
      have hqa : q = a := by simpa using hq
      subst hqa
      exact sortLe_refl q
    | cons b t2 =>
      rw [List.getLast_cons_cons]
      rcases List.mem_cons.mp hq with rfl | hq2
      · exact List.rel_of_sorted_cons hs _ (List.getLast_mem (List.cons_ne_nil b t2))
      · exact ih (List.cons_ne_nil b t2) hs.of_cons q hq2

theorem convex_hull_2d_eq_chains (pts : List (Point2D ℚ)) (h : ¬ pts.length < 3) :
    convex_hull_2d pts =
      (hull_chain (List.insertionSort sortLe pts)).tail.reverse ++
        (hull_chain (List.insertionSort sortLe pts).reverse).tail.reverse := by
  unfold convex_hull_2d
  rw [if_neg h]

/-- C4: on at least three pairwise-collinear points the hull degenerates
to the two extreme points: the returned list is exactly the lexicographic
minimum followed by the lexicographic maximum of the input. -/
theorem convex_hull_2d_collinear_extremes (pts : List (Point2D ℚ))
    (h3 : 3 ≤ pts.length)
    (hcol : ∀ u ∈ pts, ∀ v ∈ pts, ∀ w ∈ pts, cross_product u v w = 0) :
    ∃ mn mx, convex_hull_2d pts = [mn, mx] ∧ mn ∈ pts ∧ mx ∈ pts ∧
      (∀ q ∈ pts, sortLe mn q) ∧ (∀ q ∈ pts, sortLe q mx) := by
  rw [convex_hull_2d_eq_chains pts (by omega)]
  have hperm := List.perm_insertionSort sortLe pts
  have hsorted := List.sorted_insertionSort sortLe pts
  have hmem : ∀ a : Point2D ℚ, a ∈ List.insertionSort sortLe pts ↔ a ∈ pts :=
    fun a => hperm.mem_iff
  have hlen : (List.insertionSort sortLe pts).length = pts.length :=
    List.length_insertionSort sortLe pts
  set S := List.insertionSort sortLe pts with hSdef
  obtain ⟨s0, s', hs0⟩ : ∃ a t, S = a :: t := by
    apply List.exists_cons_of_ne_nil
    intro hnil
    rw [hnil] at hlen
    simp at hlen
    omega
  obtain ⟨s1, srest, hs1⟩ : ∃ a t, s' = a :: t := by
    apply List.exists_cons_of_ne_nil
    intro hnil
    rw [hnil] at hs0
    rw [hs0] at hlen
    simp at hlen
    omega
  rw [hs1] at hs0
  rw [hs0] at hsorted hmem hlen ⊢
  have hmemS : ∀ a : Point2D ℚ, a ∈ s0 :: s1 :: srest → a ∈ pts :=
    fun a ha => (hmem a).mp ha
  have hlow : hull_chain (s0 :: s1 :: srest) =
      [(s1 :: srest).getLast (List.cons_ne_nil s1 srest), s0] := by
    apply hull_chain_cons_cons
    intro u c hu hc
    exact hcol s0 (hmemS s0 (List.mem_cons_self s0 (s1 :: srest))) u
      (hmemS u (List.mem_cons_of_mem s0 hu)) c
      (hmemS c (List.mem_cons_of_mem s0 (List.mem_cons_of_mem s1 hc)))
  obtain ⟨r0, r', hr0⟩ : ∃ a t, (s0 :: s1 :: srest).reverse = a :: t := by
    apply List.exists_cons_of_ne_nil
    simp
  obtain ⟨r1, rrest, hr1⟩ : ∃ a t, r' = a :: t := by
    apply List.exists_cons_of_ne_nil
    intro hnil
    have := congrArg List.length hr0
    rw [hnil] at this
    simp at this
  rw [hr1] at hr0
  have hmemR : ∀ a : Point2D ℚ, a ∈ r0 :: r1 :: rrest → a ∈ pts := by
    intro a ha
    rw [← hr0] at ha
    exact hmemS a (List.mem_reverse.mp ha)
  have hupp : hull_chain (r0 :: r1 :: rrest) =
      [(r1 :: rrest).getLast (List.cons_ne_nil r1 rrest), r0] := by
    apply hull_chain_cons_cons
    intro u c hu hc
    exact hcol r0 (hmemR r0 (List.mem_cons_self r0 (r1 :: rrest))) u
      (hmemR u (List.mem_cons_of_mem r0 hu)) c
      (hmemR c (List.mem_cons_of_mem r0 (List.mem_cons_of_mem r1 hc)))
  have hr0_getLast : (s0 :: s1 :: srest).getLast (List.cons_ne_nil s0 (s1 :: srest)) = r0 := by
    have h1 : (s0 :: s1 :: srest).reverse.head? = some r0 := by
      rw [hr0]
      rfl
    rw [List.head?_reverse, List.getLast?_eq_getLast _ (List.cons_ne_nil s0 (s1 :: srest))]
      at h1
    exact Option.some.injEq _ _ ▸ h1
  refine ⟨s0, r0, ?_, ?_, ?_, ?_, ?_⟩
  · rw [hr0, hlow, hupp]
    simp
  · exact hmemS s0 (List.mem_cons_self s0 (s1 :: srest))
  · exact hmemR r0 (List.mem_cons_self r0 (r1 :: rrest))
  · intro q hq
    have hqS : q ∈ s0 :: s1 :: srest := (hmem q).mpr hq
    rcases List.mem_cons.mp hqS with rfl | hq2
    · exact sortLe_refl q
    · exact List.rel_of_sorted_cons hsorted q hq2
  · intro q hq
    have hqS : q ∈ s0 :: s1 :: srest := (hmem q).mpr hq
    rw [← hr0_getLast]
    exact sorted_rel_getLast (s0 :: s1 :: srest) (List.cons_ne_nil s0 (s1 :: srest))
      hsorted q hqS

/-- Witness for C4: three collinear points on the diagonal reduce to a
two-point hull consisting of the lexicographic extremes. -/
theorem convex_hull_2d_collinear_extremes_witness :
    3 ≤ ([⟨0, 0⟩, ⟨1, 1⟩, ⟨2, 2⟩] : List (Point2D ℚ)).length ∧
      ∃ mn mx, convex_hull_2d [⟨0, 0⟩, ⟨1, 1⟩, ⟨2, 2⟩] = [mn, mx] ∧
        mn ∈ ([⟨0, 0⟩, ⟨1, 1⟩, ⟨2, 2⟩] : List (Point2D ℚ)) ∧
        mx ∈ ([⟨0, 0⟩, ⟨1, 1⟩, ⟨2, 2⟩] : List (Point2D ℚ)) ∧
        (∀ q ∈ ([⟨0, 0⟩, ⟨1, 1⟩, ⟨2, 2⟩] : List (Point2D ℚ)), sortLe mn q) ∧
        (∀ q ∈ ([⟨0, 0⟩, ⟨1, 1⟩, ⟨2, 2⟩] : List (Point2D ℚ)), sortLe q mx) := by
  refine ⟨by decide, ?_⟩
  apply convex_hull_2d_collinear_extremes
  · decide
  · intro u hu v hv w hw
    fin_cases hu <;> fin_cases hv <;> fin_cases hw <;> norm_num [cross_product]

/-- C9: normalize is absent exactly when the magnitude is zero; on any
other point it returns a unit-length positive rescaling of the point; in
particular (3,4) normalizes to (0.6, 0.8) and the zero vector has no
normalization. -/
theorem normalize_spec :
    (∀ p : Point2D ℝ, p.normalize = none ↔ Real.sqrt (p.x * p.x + p.y * p.y) = 0) ∧
      (∀ p : Point2D ℝ, p ≠ Point2D.origin →
        ∃ q : Point2D ℝ, p.normalize = some q ∧ q.x * q.x + q.y * q.y = 1 ∧
          ∃ c : ℝ, 0 < c ∧ q.x = c * p.x ∧ q.y = c * p.y) ∧
      Point2D.normalize (Point2D.new 3 4) = some (Point2D.new 0.6 0.8) ∧
      Point2D.normalize (Point2D.new 0 0) = none := by
  have hpos : ∀ p : Point2D ℝ, p ≠ Point2D.origin → 0 < p.x * p.x + p.y * p.y := by
    intro p hp
    have hx : p.x ≠ 0 ∨ p.y ≠ 0 := by
      by_contra hcon
      push_neg at hcon
      exact hp (Point2D.ext_xy hcon.1 hcon.2)
    rcases hx with hx | hy
    · nlinarith [mul_self_pos.mpr hx, mul_self_nonneg p.y]
    · nlinarith [mul_self_nonneg p.x, mul_self_pos.mpr hy]
  refine ⟨?_, ?_, ?_, ?_⟩
  · intro p
    simp only [Point2D.normalize]
    split
    · next h => simpa using h
    · next h => simpa using h
  · intro p hp
    have hsum := hpos p hp
    have hm : 0 < Real.sqrt (p.x * p.x + p.y * p.y) := Real.sqrt_pos.mpr hsum
    refine ⟨⟨p.x / Real.sqrt (p.x * p.x + p.y * p.y),
      p.y / Real.sqrt (p.x * p.x + p.y * p.y)⟩, ?_, ?_, ?_⟩
    · simp only [Point2D.normalize]
      rw [if_neg (ne_of_gt hm)]
    · have hsq : Real.sqrt (p.x * p.x + p.y * p.y) * Real.sqrt (p.x * p.x + p.y * p.y) =
          p.x * p.x + p.y * p.y := Real.mul_self_sqrt (le_of_lt hsum)
      have hcollect : p.x / Real.sqrt (p.x * p.x + p.y * p.y) *
            (p.x / Real.sqrt (p.x * p.x + p.y * p.y)) +
          p.y / Real.sqrt (p.x * p.x + p.y * p.y) *
            (p.y / Real.sqrt (p.x * p.x + p.y * p.y)) =
          (p.x * p.x + p.y * p.y) /
            (Real.sqrt (p.x * p.x + p.y * p.y) * Real.sqrt (p.x * p.x + p.y * p.y)) := by
        ring
      rw [hcollect, hsq, div_self (ne_of_gt hsum)]
    · exact ⟨1 / Real.sqrt (p.x * p.x + p.y * p.y), by positivity, by ring, by ring⟩
  · have h25 : Real.sqrt ((Point2D.new (3 : ℝ) 4).x * (Point2D.new (3 : ℝ) 4).x +
        (Point2D.new (3 : ℝ) 4).y * (Point2D.new (3 : ℝ) 4).y) = 5 := by
      rw [show (Point2D.new (3 : ℝ) 4).x * (Point2D.new (3 : ℝ) 4).x +
          (Point2D.new (3 : ℝ) 4).y * (Point2D.new (3 : ℝ) 4).y = 5 ^ 2 by
        norm_num [Point2D.new]]
      exact Real.sqrt_sq (by norm_num)
    simp only [Point2D.normalize, h25]
    rw [if_neg (by norm_num : (5 : ℝ) ≠ 0)]
    norm_num [Point2D.new]
  · simp [Point2D.normalize, Point2D.new]

/-- Witness for C9: the point (3,4) is not the origin, and the theorem
produces its unit-length positive rescaling. -/
theorem normalize_spec_witness :
    Point2D.new (3 : ℝ) 4 ≠ Point2D.origin ∧
      ∃ q : Point2D ℝ, (Point2D.new (3 : ℝ) 4).normalize = some q ∧
        q.x * q.x + q.y * q.y = 1 ∧
        ∃ c : ℝ, 0 < c ∧ q.x = c * (Point2D.new (3 : ℝ) 4).x ∧
          q.y = c * (Point2D.new (3 : ℝ) 4).y := by
  have hne : Point2D.new (3 : ℝ) 4 ≠ Point2D.origin := by
    intro h
    have hx := congrArg Point2D.x h
    norm_num [Point2D.new, Point2D.origin] at hx
  exact ⟨hne, normalize_spec.2.1 (Point2D.new (3 : ℝ) 4) hne⟩
